import Mathlib

/-!
Verification of the biblemotif pipeline (src/biblemotif.py).

The development below is a shallow embedding of the source:

* A word occurrence record (`row` in the Python source) keeps the fields the
  pipeline reads: `lemma` (here `lemma_`, since `lemma` is a keyword),
  `ccat-parse` (here `ccat_parse`, as a list of characters so that the fixed
  position 4 can be inspected), and `text`.
* Python `dict`/`collections.Counter` tables are embedded as association
  lists with first-match lookup; keys are unique by construction (an
  invariant proved below where it matters).
* The external corpus source (`pysblgnt.morphgnt_rows`) is abstracted as a
  list of books, each a list of occurrence rows, fed to the counting pass in
  order.  The source iterates exactly books 1..27; the embedding iterates an
  arbitrary finite book list the same way.
* Python floats are embedded as real numbers; `math.log2 x` is
  `Real.logb 2 x`.  The counting and table-building stages stay in `ℚ`/`ℤ`
  so they are executable; the frequency tables produced by `calc_atfs` store
  the *argument* `1 + freq / max_freq` of the logarithm, and the thin
  real-valued layer (`atf_table`, `imatf_table`, `calc_scores`, `main`)
  applies `Real.logb 2` to those stored rationals.
* Fallible Python code (uncaught `ValueError` / `IndexError` /
  `ZeroDivisionError` / `KeyError` exceptions) is embedded with
  `Option`/`Except` results; `main`'s distinct outcomes are the
  constructors of `MainResult`.
-/

/-- One word occurrence (`row`) of the corpus stream.  `ccat_parse` is the
morphological code string, as a character list so the checked position 4 can
be read. -/
structure Row where
  lemma_ : String
  ccat_parse : List Char
  text : String
deriving DecidableEq

/-- `TDefTerm`: one term pattern `lemma` or `lemma:flags` of a token
definition; `attrs` is the flag string. -/
structure TDefTerm where
  lex : String
  attrs : List Char
deriving DecidableEq

/-- `TDefTerm.matches`: `*` matches anything; otherwise the lemma must be
equal, and if the `G` flag is present, position 4 of the morph code must be
`G`.  (The source indexes `row['ccat-parse'][4]` only when `'G' in attrs`,
so the short-circuit is kept; a morph code shorter than 5 characters is
treated as a mismatch here, where Python would raise.) -/
def TDefTerm.matches (t : TDefTerm) (row : Row) : Bool :=
  if t.lex = "*" then true
  else if t.lex ≠ row.lemma_ then false
  else if 'G' ∈ t.attrs ∧ row.ccat_parse.get? 4 ≠ some 'G' then false
  else true

/-- `TDef`: one alternative of a token definition, an ordered term list. -/
structure TDef where
  terms : List TDefTerm
deriving DecidableEq

/-- Python's slice `rows[-k:]`: the trailing `k` elements, except that
`k = 0` (and `k ≥ length`) yields the whole list. -/
def pySliceLast (k : Nat) (rows : List Row) : List Row :=
  if k = 0 then rows else rows.drop (rows.length - k)

/-- Position-aligned conjunction of the term matchers over a row list of the
same length. -/
def matchesAll : List TDefTerm → List Row → Bool
  | [], [] => true
  | t :: ts, r :: rs => t.matches r && matchesAll ts rs
  | _, _ => false

/-- `TDef.matches`: take the trailing `len(terms)` rows; if fewer are
available return `None`, otherwise require every aligned term to match and
return the matched rows. -/
def TDef.matches (d : TDef) (rows : List Row) : Option (List Row) :=
  let rows2 := pySliceLast d.terms.length rows
  if rows2.length = d.terms.length then
    if matchesAll d.terms rows2 then some rows2 else none
  else none

/-- A named token definition with its ordered alternatives. -/
structure Token where
  name : String
  tdefs : List TDef
deriving DecidableEq

/-- Python truthiness of an alternative's result: `None` and the empty list
are falsy (`if subrows:`). -/
def truthy : Option (List Row) → Bool
  | some (_ :: _) => true
  | _ => false

/-- The loop body of `Token.matches`: return the first alternative's truthy
result, in declaration order. -/
def matchAlts : List TDef → List Row → Option (List Row)
  | [], _ => none
  | d :: ds, rows => if truthy (d.matches rows) then d.matches rows else matchAlts ds rows

/-- `Token.matches`: first-match-wins over the alternatives. -/
def Token.matches (tok : Token) (rows : List Row) : Option (List Row) :=
  matchAlts tok.tdefs rows

/-- Python's `max()` over a list: `None` models the `ValueError` raised on
an empty sequence. -/
def listMax1 : List Nat → Option Nat
  | [] => none
  | x :: xs => some (xs.foldl max x)

/-- `Token.max_size`: `max(len(tdef) for tdef in self.tdefs)`. -/
def Token.max_size (tok : Token) : Option Nat :=
  listMax1 (tok.tdefs.map fun d => d.terms.length)

/-- A `collections.Counter` of the source: keys in insertion order, integer
counts (decrements may drive them to zero or below while the key stays). -/
abbrev Counter := List (String × Int)

/-- First-match association-list lookup (Python `dict` access). -/
def alistFind {α : Type} : List (String × α) → String → Option α
  | [], _ => none
  | p :: ps, k => if p.1 = k then some p.2 else alistFind ps k

/-- Python `k in counter`. -/
def hasKey (c : Counter) (k : String) : Bool :=
  (alistFind c k).isSome

/-- `counter[k]` with the `Counter` default of `0` for a missing key. -/
def counterGet (c : Counter) (k : String) : Int :=
  (alistFind c k).getD 0

/-- `counter[k] += n`: update the entry in place, or append a fresh key at
the end (Python dicts keep insertion order). -/
def counterAdd (c : Counter) (k : String) (n : Int) : Counter :=
  if hasKey c k then c.map fun p => if p.1 = k then (p.1, p.2 + n) else p
  else c ++ [(k, n)]

/-- The count returned by `freqs.most_common(1)[0]`: the largest count in
the table; `none` models the `IndexError` on an empty table. -/
def maxCount : Counter → Option Int
  | [] => none
  | p :: ps => some ((ps.map Prod.snd).foldl max p.2)

/-- The configuration threaded through the counting pass: the token list,
the window capacity `row_queue_len`, and the stopword list. -/
structure FreqConfig where
  tokens : List Token
  qlen : Nat
  stopwords : List String

/-- The token loop of `calc_freqs`: the first token (in list order) whose
`matches` result is truthy, together with the matched rows; later tokens are
not consulted (`break`). -/
def firstTokenMatch : List Token → List Row → Option (Token × List Row)
  | [], _ => none
  | t :: ts, rows =>
    match t.matches rows with
    | some (r :: rs) => some (t, r :: rs)
    | _ => firstTokenMatch ts rows

/-- The absorption loop: for each matched row, decrement the aggregate and
the book-local count of its lemma, as one paired update per row. -/
def absorb (all book : Counter) : List Row → Counter × Counter
  | [] => (all, book)
  | r :: rs => absorb (counterAdd all r.lemma_ (-1)) (counterAdd book r.lemma_ (-1)) rs

/-- Appending the new row and evicting the oldest entry beyond the window
capacity (`row_queue.append(row); if len > row_queue_len: pop(0)`). -/
def windowAdvance (qlen : Nat) (q : List Row) (row : Row) : List Row :=
  let q2 := q ++ [row]
  if q2.length > qlen then q2.drop 1 else q2

/-- The per-occurrence state of `calc_freqs`: the aggregate table, the
current book's table, and the sliding-window buffer. -/
structure FreqState where
  all_freqs : Counter
  book_freqs : Counter
  row_queue : List Row
deriving DecidableEq

/-- One iteration of the inner loop of `calc_freqs`: skip stopwords;
otherwise count the lemma at both levels, advance the window, and let the
first matching token absorb its matched rows and add its synthetic name. -/
def stepRow (cfg : FreqConfig) (st : FreqState) (row : Row) : FreqState :=
  if row.lemma_ ∈ cfg.stopwords then st
  else
    let all := counterAdd st.all_freqs row.lemma_ 1
    let book := counterAdd st.book_freqs row.lemma_ 1
    let q := windowAdvance cfg.qlen st.row_queue row
    match firstTokenMatch cfg.tokens q with
    | none => ⟨all, book, q⟩
    | some (tok, rows) =>
      let ab := absorb all book rows
      ⟨counterAdd ab.1 tok.name 1, counterAdd ab.2 tok.name 1, q⟩

/-- Processing the rows of one book in order. -/
def runRows (cfg : FreqConfig) (st : FreqState) (rows : List Row) : FreqState :=
  rows.foldl (stepRow cfg) st

/-- Processing the books in order: each book starts with a fresh empty
table, while the aggregate table and the window buffer persist across book
boundaries (as in the source). -/
def runBooks (cfg : FreqConfig) : Counter → List Counter → List Row → List (List Row) →
    Counter × List Counter × List Row
  | all, done, q, [] => (all, done, q)
  | all, done, q, b :: bs =>
    let st := runRows cfg ⟨all, [], q⟩ b
    runBooks cfg st.all_freqs (done ++ [st.book_freqs]) st.row_queue bs

/-- `map` over `Option`-returning steps, stopping at the first failure (the
first uncaught exception of the corresponding Python loop). -/
def mapOption {α β : Type} (f : α → Option β) : List α → Option (List β)
  | [] => some []
  | a :: l =>
    match f a, mapOption f l with
    | some b, some bs => some (b :: bs)
    | _, _ => none

/-- `calc_freqs`: compute the window capacity as the maximum `max_size`
over the tokens (`none` models the `ValueError` of `max()` on an empty
token list, raised before any occurrence is counted), then run the counting
pass; returns the aggregate table and the per-book tables. -/
def calc_freqs (tokens : List Token) (stopwords : List String)
    (corpus : List (List Row)) : Option (Counter × List Counter) :=
  match mapOption Token.max_size tokens with
  | none => none
  | some sizes =>
    match listMax1 sizes with
    | none => none
    | some qlen =>
      let r := runBooks ⟨tokens, qlen, stopwords⟩ [] [] [] corpus
      some (r.1, r.2.1)

/-- The per-book body of `calc_atfs`, kept in argument space: for each entry
`(lex, freq)` of the book's table store `1 + freq / max_freq`; the book's
augmented term frequency is `Real.logb 2` of that value.  `none` models the
`IndexError` on an empty table and the `ZeroDivisionError` when the largest
count is `0`. -/
def book_atf_args (freqs : Counter) : Option (List (String × ℚ)) :=
  match maxCount freqs with
  | none => none
  | some m =>
    if m = 0 then none
    else some (freqs.map fun p => (p.1, 1 + (p.2 : ℚ) / (m : ℚ)))

/-- `all_atfs[lex].append(v)` on a `defaultdict(list)`: extend the entry or
insert a fresh singleton at the end. -/
def alistAppend (g : List (String × List ℚ)) (k : String) (v : ℚ) : List (String × List ℚ) :=
  if (alistFind g k).isSome then g.map fun p => if p.1 = k then (p.1, p.2 ++ [v]) else p
  else g ++ [(k, [v])]

/-- The `all_atfs` accumulation of `calc_atfs`: every book's table, in book
order, appends each of its values under its key. -/
def collect_atfs (atfs : List (List (String × ℚ))) : List (String × List ℚ) :=
  atfs.foldl (fun g t => t.foldl (fun g2 p => alistAppend g2 p.1 p.2) g) []

/-- `calc_atfs`: per-book augmented-frequency tables plus the corpus-wide
per-lemma list of values (both in argument space). -/
def calc_atfs (books : List Counter) :
    Option (List (List (String × ℚ)) × List (String × List ℚ)) :=
  match mapOption book_atf_args books with
  | none => none
  | some atfs => some (atfs, collect_atfs atfs)

/-- A book's real-valued `atfs` table: `log2` applied to the stored
argument. -/
noncomputable def atf_table (args : List (String × ℚ)) : List (String × ℝ) :=
  args.map fun p => (p.1, Real.logb 2 ((p.2 : ℚ) : ℝ))

/-- The real-valued `imatfs` table: `1 - statistics.mean` of the per-book
augmented frequencies of each lemma. -/
noncomputable def imatf_table (g : List (String × List ℚ)) : List (String × ℝ) :=
  g.map fun p => (p.1, 1 - ((p.2.map fun a => Real.logb 2 ((a : ℚ) : ℝ)).sum) / (p.2.length : ℝ))

/-- The term loop of `calc_scores` for one book: accumulate
`atfs.get(term, 0) * imatfs[term]`; a term missing from `imatfs` is the
uncaught `KeyError`, reported with the term name. -/
noncomputable def sumTerms (atfs_b : List (String × ℝ)) (imatfs : List (String × ℝ))
    (acc : ℝ) : List String → Except String ℝ
  | [] => .ok acc
  | t :: ts =>
    match alistFind imatfs t with
    | none => .error t
    | some w => sumTerms atfs_b imatfs (acc + ((alistFind atfs_b t).getD 0) * w) ts

/-- One book's score: the accumulated sum divided by the number of terms
(`score /= len(terms)`; an empty term list is the `ZeroDivisionError`). -/
noncomputable def book_score (atfs_b : List (String × ℝ)) (imatfs : List (String × ℝ))
    (terms : List String) : Except String ℝ :=
  match sumTerms atfs_b imatfs 0 terms with
  | .error e => .error e
  | .ok s =>
    if terms.length = 0 then .error "ZeroDivisionError"
    else .ok (s / (terms.length : ℝ))

/-- `map` over `Except`-returning steps, stopping at the first error. -/
def mapExcept {ε α β : Type} (f : α → Except ε β) : List α → Except ε (List β)
  | [] => .ok []
  | a :: l =>
    match f a with
    | .error e => .error e
    | .ok b =>
      match mapExcept f l with
      | .error e => .error e
      | .ok bs => .ok (b :: bs)

/-- `calc_scores`: one score per book, in book order, aborting at the first
uncaught exception. -/
noncomputable def calc_scores (atfs : List (List (String × ℝ))) (imatfs : List (String × ℝ))
    (terms : List String) : Except String (List ℝ) :=
  mapExcept (fun b => book_score b imatfs terms) atfs

/-- The distinct outcomes of `main`: the scores with exit code 0; the
explicit `Token not found` report with exit code 1; or one of the uncaught
exceptions (non-zero process exit), tagged by the stage that raises it. -/
inductive MainResult where
  | ok : List ℝ → MainResult
  | tokenNotFound : String → MainResult
  | valueError : MainResult
  | emptyBookError : MainResult
  | scoringError : String → MainResult

/-- The pipeline of `main` after configuration parsing: count, check every
configured token's name against the aggregate table (returning 1 with a
report on the first miss), then compute augmented frequencies and scores. -/
noncomputable def main (tokens : List Token) (stopwords : List String)
    (corpus : List (List Row)) (motif_terms : List String) : MainResult :=
  match calc_freqs tokens stopwords corpus with
  | none => .valueError
  | some (all, books) =>
    match tokens.find? (fun t => !(hasKey all t.name)) with
    | some t => .tokenNotFound t.name
    | none =>
      match calc_atfs books with
      | none => .emptyBookError
      | some (atfs, g) =>
        match calc_scores (atfs.map atf_table) (imatf_table g) motif_terms with
        | .error e => .scoringError e
        | .ok scores => .ok scores

/-- The sum, over a list of per-book tables, of one key's counts. -/
def sumBooks (done : List Counter) (k : String) : Int :=
  (done.map fun c => counterGet c k).sum

/-- Uniqueness of the keys of a table — the defining invariant of the
Python `dict`/`Counter` this embedding's association lists stand for. -/
def keysNodup {α : Type} (c : List (String × α)) : Prop :=
  (c.map Prod.fst).Nodup

/-! Concrete fixtures used by witnesses and counterexamples. -/

/-- An occurrence of the lemma `a`. -/
def rowA : Row := ⟨"a", [], ""⟩

/-- An occurrence of the lemma `b`. -/
def rowB : Row := ⟨"b", [], ""⟩

/-- The term pattern `a`. -/
def termA : TDefTerm := ⟨"a", []⟩

/-- The term pattern `b`. -/
def termB : TDefTerm := ⟨"b", []⟩

/-- The token definition `t = a b, b b`. -/
def tokenAB : Token := ⟨"t", [⟨[termA, termB]⟩, ⟨[termB, termB]⟩]⟩

/-- The token definition `tok = a`. -/
def tokenTok : Token := ⟨"tok", [⟨[termA]⟩]⟩

/-- The token definition `ghost = b` (its name never gets counted below). -/
def tokenGhost : Token := ⟨"ghost", [⟨[termB]⟩]⟩

/-- A second token definition `tok2 = a` with the same single alternative as
`tokenTok`, for first-match-wins instances. -/
def tokenTok2 : Token := ⟨"tok2", [⟨[termA]⟩]⟩

/-! ## Basic table lemmas -/

theorem alistFind_nil {α : Type} (k : String) : alistFind ([] : List (String × α)) k = none := rfl

theorem alistFind_cons {α : Type} (p : String × α) (ps : List (String × α)) (k : String) :
    alistFind (p :: ps) k = if p.1 = k then some p.2 else alistFind ps k := rfl

theorem hasKey_cons (p : String × Int) (ps : Counter) (k : String) :
    hasKey (p :: ps) k = if p.1 = k then true else hasKey ps k := by
  by_cases h : p.1 = k <;> simp [hasKey, alistFind_cons, h]

theorem counterGet_cons (p : String × Int) (ps : Counter) (k : String) :
    counterGet (p :: ps) k = if p.1 = k then p.2 else counterGet ps k := by
  by_cases h : p.1 = k <;> simp [counterGet, alistFind_cons, h]

/-- Effect of the in-place update branch of `counterAdd` on a lookup. -/
theorem counterGet_update (c : Counter) (k : String) (n : Int) (k2 : String) :
    counterGet (c.map fun p => if p.1 = k then (p.1, p.2 + n) else p) k2
      = counterGet c k2 + (if k2 = k ∧ hasKey c k then n else 0) := by
  induction c with
  | nil => simp [counterGet, alistFind, hasKey]
  | cons p ps ih =>
    by_cases hpk : p.1 = k
    · by_cases hk2 : p.1 = k2
      · subst hk2
        simp [counterGet_cons, hasKey_cons, hpk, counterGet, alistFind_cons]
      · have hne : ¬ k2 = k := by
          intro h
          exact hk2 (hpk.trans h.symm)
        simp only [List.map_cons]
        rw [if_pos hpk]
        rw [counterGet_cons, counterGet_cons]
        simp only [hk2, if_false]
        rw [ih]
        simp [hne]
    · by_cases hk2 : p.1 = k2
      · subst hk2
        simp only [List.map_cons]
        rw [if_neg hpk]
        rw [counterGet_cons, counterGet_cons]
        simp only [if_pos rfl]
        have : ¬ (p.1 = k ∧ hasKey (p :: ps) k) := fun h => hpk h.1
        by_cases hh : p.1 = k
        · exact absurd hh hpk
        · simp [hh]
      · simp only [List.map_cons]
        rw [if_neg hpk]
        rw [counterGet_cons, counterGet_cons]
        simp only [hk2, if_false]
        rw [ih]
        rw [hasKey_cons]
        simp [hpk]

/-- Effect of the fresh-key branch of `counterAdd` on a lookup. -/
theorem counterGet_append_single (c : Counter) (k : String) (n : Int) (k2 : String)
    (h : hasKey c k = false) :
    counterGet (c ++ [(k, n)]) k2 = counterGet c k2 + (if k2 = k then n else 0) := by
  induction c with
  | nil =>
    by_cases hk : k2 = k
    · subst hk
      simp [counterGet_cons, counterGet, alistFind]
    · have hk2 : ¬ k = k2 := fun hh => hk hh.symm
      simp [counterGet_cons, counterGet, alistFind, hk, hk2]
  | cons p ps ih =>
    rw [hasKey_cons] at h
    by_cases hpk : p.1 = k
    · simp [hpk] at h
    · rw [if_neg hpk] at h
      rw [List.cons_append, counterGet_cons, counterGet_cons]
      by_cases hp : p.1 = k2
      · have : ¬ k2 = k := fun hh => hpk (hp.trans hh)
        simp [hp, this]
      · simp [hp, ih h]

/-- `counter[k] += n` adds `n` to `k`'s count and leaves every other count
unchanged. -/
theorem counterGet_counterAdd (c : Counter) (k : String) (n : Int) (k2 : String) :
    counterGet (counterAdd c k n) k2 = counterGet c k2 + (if k2 = k then n else 0) := by
  unfold counterAdd
  by_cases h : hasKey c k
  · rw [if_pos h, counterGet_update]
    simp [h]
  · rw [if_neg h, counterGet_append_single c k n k2 (by simpa using h)]

/-! ## Conservation of counts through the accumulation pass -/

/-- Each paired decrement of the absorption loop changes the aggregate and
the book-local table by the same amount at every key. -/
theorem absorb_delta (rows : List Row) (all book : Counter) (k : String) :
    counterGet (absorb all book rows).1 k + counterGet book k
      = counterGet (absorb all book rows).2 k + counterGet all k := by
  induction rows generalizing all book with
  | nil => simp [absorb]; omega
  | cons r rs ih =>
    simp only [absorb]
    have h := ih (counterAdd all r.lemma_ (-1)) (counterAdd book r.lemma_ (-1))
    rw [counterGet_counterAdd, counterGet_counterAdd] at h
    omega

/-- One occurrence-processing step changes the aggregate and the current
book's table by the same amount at every key. -/
theorem stepRow_delta (cfg : FreqConfig) (st : FreqState) (row : Row) (k : String) :
    counterGet (stepRow cfg st row).all_freqs k + counterGet st.book_freqs k
      = counterGet (stepRow cfg st row).book_freqs k + counterGet st.all_freqs k := by
  unfold stepRow
  by_cases hs : row.lemma_ ∈ cfg.stopwords
  · simp only [hs, if_true]
    omega
  · simp only [hs, if_false]
    rcases hm : firstTokenMatch cfg.tokens (windowAdvance cfg.qlen st.row_queue row) with
      _ | ⟨tok, rows⟩
    · simp only [hm]
      rw [counterGet_counterAdd, counterGet_counterAdd]
      omega
    · simp only [hm]
      rw [counterGet_counterAdd, counterGet_counterAdd]
      have h := absorb_delta rows (counterAdd st.all_freqs row.lemma_ 1)
        (counterAdd st.book_freqs row.lemma_ 1) k
      rw [counterGet_counterAdd, counterGet_counterAdd] at h
      omega

/-- Processing any row sequence changes the aggregate and the current
book's table by the same amount at every key. -/
theorem runRows_delta (rows : List Row) (cfg : FreqConfig) (st : FreqState) (k : String) :
    counterGet (runRows cfg st rows).all_freqs k + counterGet st.book_freqs k
      = counterGet (runRows cfg st rows).book_freqs k + counterGet st.all_freqs k := by
  induction rows generalizing st with
  | nil =>
    simp only [runRows, List.foldl_nil]
    omega
  | cons r rs ih =>
    have h1 := stepRow_delta cfg st r k
    have h2 := ih (stepRow cfg st r)
    simp only [runRows, List.foldl_cons] at h2 ⊢
    omega

theorem sumBooks_nil (k : String) : sumBooks [] k = 0 := rfl

theorem sumBooks_append_single (done : List Counter) (c : Counter) (k : String) :
    sumBooks (done ++ [c]) k = sumBooks done k + counterGet c k := by
  simp [sumBooks]

/-- The book loop of `calc_freqs` keeps the aggregate count of every key
equal to the sum of the per-book counts over the collected books. -/
theorem runBooks_inv (bs : List (List Row)) (cfg : FreqConfig) (all : Counter)
    (done : List Counter) (q : List Row) (k : String)
    (h : counterGet all k = sumBooks done k) :
    counterGet (runBooks cfg all done q bs).1 k
      = sumBooks (runBooks cfg all done q bs).2.1 k := by
  induction bs generalizing all done q with
  | nil => simpa [runBooks]
  | cons b bs ih =>
    simp only [runBooks]
    apply ih
    have hd : counterGet (runRows cfg ⟨all, [], q⟩ b).all_freqs k + 0
        = counterGet (runRows cfg ⟨all, [], q⟩ b).book_freqs k + counterGet all k :=
      runRows_delta b cfg ⟨all, [], q⟩ k
    rw [sumBooks_append_single]
    omega

/-- C5.  At every point of the accumulation pass — after any number of
whole books followed by any prefix of the next book's rows — the aggregate
count of every key equals the sum of that key's per-book counts (the
finished books' tables plus the in-progress book's table), and each paired
decrement of the absorption loop moves the aggregate and the book-local
table in lockstep, so the equation holds between operations as well. -/
theorem claim_C5 (cfg : FreqConfig) (bs : List (List Row)) (part : List Row) (k : String) :
    (counterGet (runRows cfg
          ⟨(runBooks cfg [] [] [] bs).1, [], (runBooks cfg [] [] [] bs).2.2⟩ part).all_freqs k
        = sumBooks (runBooks cfg [] [] [] bs).2.1 k
          + counterGet (runRows cfg
              ⟨(runBooks cfg [] [] [] bs).1, [], (runBooks cfg [] [] [] bs).2.2⟩ part).book_freqs k)
    ∧ (∀ (all book : Counter) (rows : List Row),
        counterGet (absorb all book rows).1 k + counterGet book k
          = counterGet (absorb all book rows).2 k + counterGet all k)
    ∧ counterGet (runBooks cfg [] [] [] bs).1 k = sumBooks (runBooks cfg [] [] [] bs).2.1 k := by
  have hend : counterGet (runBooks cfg [] [] [] bs).1 k
      = sumBooks (runBooks cfg [] [] [] bs).2.1 k :=
    runBooks_inv bs cfg [] [] [] k rfl
  refine ⟨?_, fun all book rows => absorb_delta rows all book k, hend⟩
  have hd : counterGet (runRows cfg
        ⟨(runBooks cfg [] [] [] bs).1, [], (runBooks cfg [] [] [] bs).2.2⟩ part).all_freqs k + 0
      = counterGet (runRows cfg
          ⟨(runBooks cfg [] [] [] bs).1, [], (runBooks cfg [] [] [] bs).2.2⟩ part).book_freqs k
        + counterGet (runBooks cfg [] [] [] bs).1 k :=
    runRows_delta part cfg ⟨(runBooks cfg [] [] [] bs).1, [], (runBooks cfg [] [] [] bs).2.2⟩ k
  omega

/-! ## First-match-wins of the token loop -/

/-- The rows returned by an alternative are a suffix of the window. -/
theorem TDef_matches_suffix (d : TDef) (q rows : List Row)
    (h : TDef.matches d q = some rows) : rows.IsSuffix q := by
  unfold TDef.matches at h
  by_cases hl : (pySliceLast d.terms.length q).length = d.terms.length
  · rw [if_pos hl] at h
    by_cases hm : matchesAll d.terms (pySliceLast d.terms.length q) = true
    · rw [if_pos hm] at h
      cases h
      unfold pySliceLast
      by_cases h0 : d.terms.length = 0
      · rw [if_pos h0]
      · rw [if_neg h0]
        exact List.drop_suffix _ _
    · rw [if_neg hm] at h
      cases h
  · rw [if_neg hl] at h
    cases h

/-- The rows returned by the alternative loop are a suffix of the window. -/
theorem matchAlts_suffix (ds : List TDef) (q rows : List Row)
    (h : matchAlts ds q = some rows) : rows.IsSuffix q := by
  induction ds with
  | nil => cases h
  | cons d ds ih =>
    unfold matchAlts at h
    by_cases ht : truthy (TDef.matches d q) = true
    · rw [if_pos ht] at h
      exact TDef_matches_suffix d q rows h
    · rw [if_neg ht] at h
      exact ih h

/-- The rows returned by a token match are a suffix of the window. -/
theorem Token_matches_suffix (tok : Token) (q rows : List Row)
    (h : Token.matches tok q = some rows) : rows.IsSuffix q :=
  matchAlts_suffix tok.tdefs q rows h

/-- C7.  A successful token match does not modify the sliding-window
buffer: the queue after one step is exactly the stopword-filtered window
advance of the old queue, whatever the token loop decided (only the count
tables change on a match), and the matched occurrences are a suffix of the
buffer, which keeps them available for later overlapping matches. -/
theorem claim_C7 :
    (∀ (cfg : FreqConfig) (st : FreqState) (row : Row),
        (stepRow cfg st row).row_queue =
          if row.lemma_ ∈ cfg.stopwords then st.row_queue
          else windowAdvance cfg.qlen st.row_queue row)
    ∧ (∀ (tok : Token) (q rows : List Row),
        Token.matches tok q = some rows → rows.IsSuffix q) := by
  constructor
  · intro cfg st row
    unfold stepRow
    by_cases hs : row.lemma_ ∈ cfg.stopwords
    · simp [hs]
    · simp only [hs, if_false]
      rcases hm : firstTokenMatch cfg.tokens (windowAdvance cfg.qlen st.row_queue row) with
        _ | ⟨tok, rows⟩ <;> simp [hm]
  · exact fun tok q rows h => Token_matches_suffix tok q rows h

/-- Witness for C7 at a concrete step: the queue advance is the same with
a successful match present, and the matched rows remain a suffix of the
window. -/
theorem claim_C7_witness :
    (stepRow ⟨[tokenTok], 1, []⟩ ⟨[], [], []⟩ rowA).row_queue =
      (if rowA.lemma_ ∈ ([] : List String) then ([] : List Row) else windowAdvance 1 [] rowA)
    ∧ [rowA].IsSuffix [rowA] :=
  ⟨claim_C7.1 ⟨[tokenTok], 1, []⟩ ⟨[], [], []⟩ rowA,
   claim_C7.2 tokenTok [rowA] [rowA] (by decide)⟩

/-- C6.  First-match-wins: within a token, a truthy first alternative is
returned and later alternatives are skipped, while a falsy one defers to
the remaining alternatives in declaration order; across tokens, the first
token whose match is truthy is the one whose consumption the window loop
reports, a non-matching token defers to the rest in caller order, and once
some token of a list has matched the tokens after that list are never
consulted. -/
theorem claim_C6 :
    (∀ (name : String) (d : TDef) (ds : List TDef) (rows : List Row),
        truthy (TDef.matches d rows) = true →
        Token.matches ⟨name, d :: ds⟩ rows = TDef.matches d rows)
    ∧ (∀ (name : String) (d : TDef) (ds : List TDef) (rows : List Row),
        truthy (TDef.matches d rows) = false →
        Token.matches ⟨name, d :: ds⟩ rows = Token.matches ⟨name, ds⟩ rows)
    ∧ (∀ (t : Token) (ts : List Token) (rows : List Row) (r : Row) (rs : List Row),
        Token.matches t rows = some (r :: rs) →
        firstTokenMatch (t :: ts) rows = some (t, r :: rs))
    ∧ (∀ (t : Token) (ts : List Token) (rows : List Row),
        Token.matches t rows = none →
        firstTokenMatch (t :: ts) rows = firstTokenMatch ts rows)
    ∧ (∀ (ts extra : List Token) (rows : List Row),
        (firstTokenMatch ts rows).isSome = true →
        firstTokenMatch (ts ++ extra) rows = firstTokenMatch ts rows) := by
  refine ⟨?_, ?_, ?_, ?_, ?_⟩
  · intro name d ds rows h
    show matchAlts (d :: ds) rows = TDef.matches d rows
    simp only [matchAlts]
    rw [if_pos h]
  · intro name d ds rows h
    show matchAlts (d :: ds) rows = matchAlts ds rows
    simp only [matchAlts]
    rw [if_neg (by simp [h])]
  · intro t ts rows r rs h
    unfold firstTokenMatch
    rw [h]
  · intro t ts rows h
    simp only [firstTokenMatch, h]
  · intro ts extra rows h
    induction ts with
    | nil => simp [firstTokenMatch] at h
    | cons t ts ih =>
      rw [List.cons_append]
      rcases hm : Token.matches t rows with _ | l
      · simp only [firstTokenMatch, hm] at h ⊢
        exact ih h
      · rcases l with _ | ⟨r, rs⟩
        · simp only [firstTokenMatch, hm] at h ⊢
          exact ih h
        · simp only [firstTokenMatch, hm]

/-- Witness for C6 at concrete inputs: with two tokens whose alternatives
both match the same window, the first token's consumption is reported, and
appending further tokens after a successful list changes nothing. -/
theorem claim_C6_witness :
    firstTokenMatch [tokenTok, tokenTok2] [rowA] = some (tokenTok, [rowA])
    ∧ Token.matches ⟨"w", [⟨[termA]⟩, ⟨[termB]⟩]⟩ [rowA] = TDef.matches ⟨[termA]⟩ [rowA]
    ∧ firstTokenMatch ([tokenTok] ++ [tokenTok2]) [rowA] = firstTokenMatch [tokenTok] [rowA] :=
  ⟨claim_C6.2.2.1 tokenTok [tokenTok2] [rowA] rowA [] (by decide),
   claim_C6.1 "w" ⟨[termA]⟩ [⟨[termB]⟩] [rowA] (by decide),
   claim_C6.2.2.2.2 [tokenTok] [tokenTok2] [rowA] (by decide)⟩

/-- C9.  With an empty token-definition list the counting pass fails
(`max()` over the empty generator) before touching any occurrence — the
result is the failure for every corpus and stopword list — so every run of
`calc_freqs` that returns tables was given at least one token definition,
and `main` ends in the uncaught `ValueError` outcome. -/
theorem claim_C9 :
    (∀ (stopwords : List String) (corpus : List (List Row)),
        calc_freqs [] stopwords corpus = none)
    ∧ (∀ (tokens : List Token) (stopwords : List String) (corpus : List (List Row))
          (r : Counter × List Counter),
        calc_freqs tokens stopwords corpus = some r → tokens ≠ [])
    ∧ (∀ (stopwords : List String) (corpus : List (List Row)) (motif_terms : List String),
        main [] stopwords corpus motif_terms = .valueError) := by
  refine ⟨fun sw c => rfl, ?_, fun sw c m => rfl⟩
  intro tokens sw c r h hnil
  subst hnil
  simp [calc_freqs, mapOption, listMax1] at h

/-- Witness for C9: a run with one token definition succeeds (so its token
list is non-empty), while the empty token list fails on the same corpus. -/
theorem claim_C9_witness :
    ([tokenTok] : List Token) ≠ [] ∧ calc_freqs [] [] [[rowA]] = none :=
  ⟨claim_C9.2.1 [tokenTok] [] [[rowA]] ([("a", 0), ("tok", 1)], [[("a", 0), ("tok", 1)]])
      (by decide),
   claim_C9.1 [] [[rowA]]⟩

/-- C10.  For a non-wildcard term matcher whose flag string does not
contain `G`, matching is exactly lemma equality: the morph code and any
other flag characters are irrelevant. -/
theorem claim_C10 (t : TDefTerm) (row : Row) (hw : t.lex ≠ "*") (hg : 'G' ∉ t.attrs) :
    t.matches row = true ↔ t.lex = row.lemma_ := by
  unfold TDefTerm.matches
  rw [if_neg hw]
  by_cases h : t.lex = row.lemma_
  · simp [h, hg]
  · simp [h]

/-- Witness for C10: a matcher with an unrelated flag character matches an
occurrence with an arbitrary morph code when the lemmas agree, and fails to
match when they differ. -/
theorem claim_C10_witness :
    TDefTerm.matches ⟨"a", ['X']⟩ ⟨"a", ['N'], ""⟩ = true
    ∧ TDefTerm.matches ⟨"c", ['X']⟩ ⟨"a", ['N'], ""⟩ ≠ true :=
  ⟨(claim_C10 ⟨"a", ['X']⟩ ⟨"a", ['N'], ""⟩ (by decide) (by decide)).mpr rfl,
   fun h => absurd ((claim_C10 ⟨"c", ['X']⟩ ⟨"a", ['N'], ""⟩ (by decide) (by decide)).mp h)
     (by decide)⟩

/-! ## The scoring pass -/

theorem alistFind_map_value {α β : Type} (F : α → β) (l : List (String × α)) (k : String) :
    alistFind (l.map fun p => (p.1, F p.2)) k = (alistFind l k).map F := by
  induction l with
  | nil => rfl
  | cons p ps ih =>
    by_cases h : p.1 = k <;> simp [alistFind_cons, h, ih]

/-- When every term has a global weight, the term loop accumulates the sum
of `atf * weight` over the terms in order. -/
theorem sumTerms_ok (b imatfs : List (String × ℝ)) (terms : List String)
    (h : ∀ t ∈ terms, (alistFind imatfs t).isSome = true) (acc : ℝ) :
    sumTerms b imatfs acc terms =
      .ok (acc + (terms.map fun t =>
        ((alistFind b t).getD 0) * ((alistFind imatfs t).getD 0)).sum) := by
  induction terms generalizing acc with
  | nil => simp [sumTerms]
  | cons t ts ih =>
    obtain ⟨w, hw⟩ := Option.isSome_iff_exists.mp (h t (List.mem_cons_self t ts))
    simp only [sumTerms, hw]
    rw [ih (fun u hu => h u (List.mem_cons_of_mem t hu))]
    simp [hw, add_assoc]

/-- The term loop stops with a `KeyError` carrying the first term that has
no global weight. -/
theorem sumTerms_err (b imatfs : List (String × ℝ)) (terms : List String) (t0 : String)
    (h : terms.find? (fun t => (alistFind imatfs t).isNone) = some t0) (acc : ℝ) :
    sumTerms b imatfs acc terms = .error t0 := by
  induction terms generalizing acc with
  | nil => cases h
  | cons t ts ih =>
    by_cases hp : (alistFind imatfs t).isNone = true
    · simp only [List.find?, hp] at h
      cases h
      simp only [sumTerms, Option.isNone_iff_eq_none.mp hp]
    · have hp2 : (alistFind imatfs t).isNone = false := by
        rcases hb : (alistFind imatfs t).isNone with _ | _
        · rfl
        · exact absurd hb hp
      simp only [List.find?, hp2] at h
      rcases hn : alistFind imatfs t with _ | w
      · rw [hn] at hp2
        cases hp2
      · simp only [sumTerms, hn]
        exact ih h _

/-- If the term loop returned a sum, every term had a global weight. -/
theorem sumTerms_ok_found (b imatfs : List (String × ℝ)) (terms : List String) (acc s : ℝ)
    (h : sumTerms b imatfs acc terms = .ok s) :
    ∀ t ∈ terms, (alistFind imatfs t).isSome = true := by
  induction terms generalizing acc with
  | nil => intro t ht; cases ht
  | cons t ts ih =>
    intro u hu
    rcases hn : alistFind imatfs t with _ | w
    · simp only [sumTerms, hn] at h
      cases h
    · rcases List.mem_cons.mp hu with he | hm
      · subst he; rw [hn]; rfl
      · simp only [sumTerms, hn] at h
        exact ih _ h u hm

/-- The non-error characterisation of one book's score. -/
theorem book_score_ok (b imatfs : List (String × ℝ)) (terms : List String)
    (hne : terms ≠ []) (h : ∀ t ∈ terms, (alistFind imatfs t).isSome = true) :
    book_score b imatfs terms =
      .ok ((1 / (terms.length : ℝ)) * (terms.map fun t =>
        ((alistFind b t).getD 0) * ((alistFind imatfs t).getD 0)).sum) := by
  have hl : ¬ (terms.length = 0) := fun h0 => hne (List.length_eq_zero.mp h0)
  simp only [book_score, sumTerms_ok b imatfs terms h 0]
  rw [if_neg hl, zero_add, div_eq_mul_inv, mul_comm, ← one_div]

/-- If a book's score was produced, the query terms were non-empty and all
had global weights. -/
theorem book_score_ok_found (b imatfs : List (String × ℝ)) (terms : List String) (s : ℝ)
    (h : book_score b imatfs terms = .ok s) :
    terms ≠ [] ∧ ∀ t ∈ terms, (alistFind imatfs t).isSome = true := by
  rcases hs : sumTerms b imatfs 0 terms with e | s2
  · simp only [book_score, hs] at h
    cases h
  · simp only [book_score, hs] at h
    by_cases hl : terms.length = 0
    · rw [if_pos hl] at h
      cases h
    · exact ⟨fun hn => hl (by rw [hn]; rfl), sumTerms_ok_found b imatfs terms 0 s2 hs⟩

theorem mapExcept_ok {ε α β : Type} (f : α → Except ε β) (g : α → β) (l : List α)
    (h : ∀ a ∈ l, f a = .ok (g a)) : mapExcept f l = .ok (l.map g) := by
  induction l with
  | nil => rfl
  | cons a l ih =>
    simp only [mapExcept, h a (List.mem_cons_self a l),
      ih (fun a2 ha => h a2 (List.mem_cons_of_mem a ha)), List.map_cons]

/-- The non-error characterisation of `calc_scores`. -/
theorem calc_scores_ok (atfs : List (List (String × ℝ))) (imatfs : List (String × ℝ))
    (terms : List String) (hne : terms ≠ [])
    (h : ∀ t ∈ terms, (alistFind imatfs t).isSome = true) :
    calc_scores atfs imatfs terms =
      .ok (atfs.map fun b =>
        (1 / (terms.length : ℝ)) * (terms.map fun t =>
          ((alistFind b t).getD 0) * ((alistFind imatfs t).getD 0)).sum) :=
  mapExcept_ok _ _ atfs (fun b _ => book_score_ok b imatfs terms hne h)

/-- With at least one book, `calc_scores` aborts with the first query term
that has no global weight. -/
theorem calc_scores_err (atfs : List (List (String × ℝ))) (imatfs : List (String × ℝ))
    (terms : List String) (t0 : String) (hne : atfs ≠ [])
    (h : terms.find? (fun t => (alistFind imatfs t).isNone) = some t0) :
    calc_scores atfs imatfs terms = .error t0 := by
  rcases atfs with _ | ⟨b, rest⟩
  · exact absurd rfl hne
  · rw [calc_scores]
    simp only [mapExcept, show book_score b imatfs terms = .error t0 from by
      simp only [book_score, sumTerms_err b imatfs terms t0 h 0]]

/-- C4.  For every non-empty query term collection whose terms all have a
global weight, `calc_scores` succeeds and each book's score is
`(1 / |terms|) * Σ atf(book, term) * global_weight(term)`, with a term
never counted in the book contributing `atf = 0` (the `.get(term, 0)`
default) rather than an error. -/
theorem claim_C4 (atfs : List (List (String × ℝ))) (imatfs : List (String × ℝ))
    (terms : List String) (hne : terms ≠ [])
    (hall : ∀ t ∈ terms, (alistFind imatfs t).isSome = true) :
    calc_scores atfs imatfs terms =
      .ok (atfs.map fun b =>
        (1 / (terms.length : ℝ)) * (terms.map fun t =>
          ((alistFind b t).getD 0) * ((alistFind imatfs t).getD 0)).sum) :=
  calc_scores_ok atfs imatfs terms hne hall

/-- Witness for C4: a book that never counted one of the two query terms
still gets a score, the missing term contributing zero. -/
theorem claim_C4_witness :
    calc_scores [[("x", (1 : ℝ))]] [("x", (1/4 : ℝ)), ("y", (1 : ℝ))] ["x", "y"] =
      .ok ([[("x", (1 : ℝ))]].map fun b =>
        (1 / (((["x", "y"] : List String)).length : ℝ)) *
          (((["x", "y"] : List String)).map fun t =>
            ((alistFind b t).getD 0) *
              ((alistFind [("x", (1/4 : ℝ)), ("y", (1 : ℝ))] t).getD 0)).sum) :=
  claim_C4 [[("x", (1 : ℝ))]] [("x", (1/4 : ℝ)), ("y", (1 : ℝ))] ["x", "y"]
    (by decide) (by decide)

/-- C8.  The score of every book is invariant under permutation of the
query terms: a successful `calc_scores` run returns the same score list on
any permutation of the term collection. -/
theorem claim_C8 (atfs : List (List (String × ℝ))) (imatfs : List (String × ℝ))
    (terms1 terms2 : List String) (scores : List ℝ) (hp : terms1.Perm terms2)
    (h : calc_scores atfs imatfs terms1 = .ok scores) :
    calc_scores atfs imatfs terms2 = .ok scores := by
  rcases atfs with _ | ⟨b, rest⟩
  · exact h
  · have hb : ∃ s, book_score b imatfs terms1 = .ok s := by
      rcases hbs : book_score b imatfs terms1 with e | s
      · rw [calc_scores] at h
        simp only [mapExcept, hbs] at h
        cases h
      · exact ⟨s, rfl⟩
    obtain ⟨s, hbs⟩ := hb
    obtain ⟨hne, hall⟩ := book_score_ok_found b imatfs terms1 s hbs
    have hne2 : terms2 ≠ [] := fun h2 => hne (h2 ▸ hp).eq_nil
    have hall2 : ∀ t ∈ terms2, (alistFind imatfs t).isSome = true :=
      fun t ht => hall t (hp.mem_iff.mpr ht)
    rw [calc_scores_ok (b :: rest) imatfs terms1 hne hall] at h
    rw [calc_scores_ok (b :: rest) imatfs terms2 hne2 hall2]
    have hfun : (fun b2 : List (String × ℝ) =>
        (1 / (terms2.length : ℝ)) * (terms2.map fun t =>
          ((alistFind b2 t).getD 0) * ((alistFind imatfs t).getD 0)).sum)
      = (fun b2 : List (String × ℝ) =>
        (1 / (terms1.length : ℝ)) * (terms1.map fun t =>
          ((alistFind b2 t).getD 0) * ((alistFind imatfs t).getD 0)).sum) :=
      funext fun b2 => by
        rw [(hp.map fun t => ((alistFind b2 t).getD 0) * ((alistFind imatfs t).getD 0)).sum_eq,
          hp.length_eq]
    rw [hfun]
    exact h

/-- Witness for C8: reversing a two-term query leaves the concrete score
list unchanged. -/
theorem claim_C8_witness :
    calc_scores [([] : List (String × ℝ))] [("x", (1 : ℝ)), ("y", (1 : ℝ))] ["y", "x"] =
      .ok [(0 : ℝ)] := by
  have h1 : calc_scores [([] : List (String × ℝ))] [("x", (1 : ℝ)), ("y", (1 : ℝ))] ["x", "y"]
      = .ok [(0 : ℝ)] := by
    rw [calc_scores_ok [([] : List (String × ℝ))] [("x", (1 : ℝ)), ("y", (1 : ℝ))] ["x", "y"]
      (by decide) (by decide)]
    norm_num [alistFind]
  exact claim_C8 [([] : List (String × ℝ))] [("x", (1 : ℝ)), ("y", (1 : ℝ))] ["x", "y"] ["y", "x"]
    [(0 : ℝ)] (by decide) h1

/-- Looking up a lemma in the real-valued `imatfs` table is looking up its
argument list and applying the weight formula. -/
theorem alistFind_imatf (g : List (String × List ℚ)) (k : String) :
    alistFind (imatf_table g) k = (alistFind g k).map fun l =>
      1 - ((l.map fun a => Real.logb 2 ((a : ℚ) : ℝ)).sum) / (l.length : ℝ) := by
  induction g with
  | nil => rfl
  | cons p ps ih =>
    have hcons : imatf_table (p :: ps) =
        (p.1, 1 - ((p.2.map fun a => Real.logb 2 ((a : ℚ) : ℝ)).sum) / (p.2.length : ℝ))
          :: imatf_table ps := rfl
    rw [hcons, alistFind_cons, alistFind_cons]
    by_cases h : p.1 = k
    · simp [h]
    · simp [h, ih]

/-- Looking up a lemma in a book's real-valued `atfs` table is looking up
its argument and applying `log2`. -/
theorem alistFind_atf (args : List (String × ℚ)) (k : String) :
    alistFind (atf_table args) k = (alistFind args k).map fun a =>
      Real.logb 2 ((a : ℚ) : ℝ) := by
  induction args with
  | nil => rfl
  | cons p ps ih =>
    have hcons : atf_table (p :: ps) =
        (p.1, Real.logb 2 ((p.2 : ℚ) : ℝ)) :: atf_table ps := rfl
    rw [hcons, alistFind_cons, alistFind_cons]
    by_cases h : p.1 = k
    · simp [h]
    · simp [h, ih]

/-- C1.  What actually guards the scoring pass (the claim as stated fails,
see the counterexample): after counting, only the configured token names
are checked against the aggregate table — the first missing one is
reported and the run returns 1 before the frequency and scoring stages.  A
motif term with no corpus-wide entry passes that check; once the scoring
pass reaches it (first book, first missing term in query order) the run
aborts with an uncaught `KeyError` naming the term — a non-zero exit
during scoring, not a pre-scoring abort. -/
theorem claim_C1 (tokens : List Token) (stopwords : List String) (corpus : List (List Row))
    (motif_terms : List String) (all : Counter) (books : List Counter)
    (hfreqs : calc_freqs tokens stopwords corpus = some (all, books)) :
    (∀ tok : Token, tokens.find? (fun t => !(hasKey all t.name)) = some tok →
        main tokens stopwords corpus motif_terms = .tokenNotFound tok.name)
    ∧ (∀ (atfs : List (List (String × ℚ))) (g : List (String × List ℚ)) (term : String),
        tokens.find? (fun t => !(hasKey all t.name)) = none →
        calc_atfs books = some (atfs, g) →
        atfs ≠ [] →
        motif_terms.find? (fun t => (alistFind g t).isNone) = some term →
        main tokens stopwords corpus motif_terms = .scoringError term) := by
  constructor
  · intro tok hfind
    unfold main
    simp only [hfreqs, hfind]
  · intro atfs g term hfind hatfs hne hterm
    unfold main
    simp only [hfreqs, hfind, hatfs]
    have hfind2 : motif_terms.find? (fun t => (alistFind (imatf_table g) t).isNone)
        = some term := by
      have hpred : (fun t => (alistFind (imatf_table g) t).isNone)
          = (fun t => (alistFind g t).isNone) := funext fun t => by
        rw [alistFind_imatf]
        rcases alistFind g t with _ | l <;> rfl
      rw [hpred]
      exact hterm
    rw [calc_scores_err (atfs.map atf_table) (imatf_table g) motif_terms term
      (fun hmap => hne (List.map_eq_nil_iff.mp hmap)) hfind2]

/-- Witness for C1: a missing *token name* is reported with the dedicated
pre-scoring outcome, while a missing *motif term* surfaces as the uncaught
lookup error of the scoring stage. -/
theorem claim_C1_witness :
    main [tokenGhost] [] [[rowA]] ["zeta"] = .tokenNotFound "ghost"
    ∧ main [tokenTok] [] [[rowA]] ["zeta"] = .scoringError "zeta" :=
  ⟨(claim_C1 [tokenGhost] [] [[rowA]] ["zeta"] [("a", 1)] [[("a", 1)]] (by decide)).1
      tokenGhost (by decide),
   (claim_C1 [tokenTok] [] [[rowA]] ["zeta"] [("a", 0), ("tok", 1)] [[("a", 0), ("tok", 1)]]
      (by decide)).2 [[("a", 1), ("tok", 2)]] [("a", [1]), ("tok", [2])] "zeta" (by decide)
      (by simp [calc_atfs, mapOption, book_atf_args, maxCount, collect_atfs, alistAppend,
            alistFind, String.reduceEq]
          norm_num)
      (by decide) (by decide)⟩

/-- Counterexample to C1 as stated: the query term `zeta` never appears in
the aggregate frequency table, yet the pipeline does not abort before
scoring with a dedicated report — it reaches the scoring stage and dies
there with the uncaught `KeyError` outcome, which is not the
`tokenNotFound` report the pre-scoring check produces. -/
theorem claim_C1_counterexample :
    ("zeta" ∈ (["zeta"] : List String))
    ∧ calc_freqs [tokenTok] [] [[rowA]] = some ([("a", 0), ("tok", 1)], [[("a", 0), ("tok", 1)]])
    ∧ hasKey [("a", 0), ("tok", 1)] "zeta" = false
    ∧ main [tokenTok] [] [[rowA]] ["zeta"] = .scoringError "zeta"
    ∧ main [tokenTok] [] [[rowA]] ["zeta"] ≠ .tokenNotFound "zeta" :=
  ⟨by decide, by decide, by decide, rfl,
   fun h => MainResult.noConfusion ((rfl : main [tokenTok] [] [[rowA]] ["zeta"]
      = MainResult.scoringError "zeta") ▸ h)⟩

/-! ## Augmented term frequencies -/

theorem le_foldl_max_init (l : List Int) (a : Int) : a ≤ l.foldl max a := by
  induction l generalizing a with
  | nil => exact le_refl a
  | cons b l ih => exact le_trans (le_max_left a b) (ih (max a b))

theorem le_foldl_max_mem (l : List Int) (a x : Int) (hx : x ∈ l) : x ≤ l.foldl max a := by
  induction l generalizing a with
  | nil => cases hx
  | cons b l ih =>
    rcases List.mem_cons.mp hx with he | hm
    · subst he
      exact le_trans (le_max_right a x) (le_foldl_max_init l (max a x))
    · exact ih (max a b) hm

/-- `most_common(1)` really returns the largest count: every entry of the
table is bounded by it. -/
theorem le_maxCount (c : Counter) (m : Int) (hm : maxCount c = some m)
    (p : String × Int) (hp : p ∈ c) : p.2 ≤ m := by
  rcases c with _ | ⟨q, ps⟩
  · cases hp
  · simp only [maxCount] at hm
    cases hm
    rcases List.mem_cons.mp hp with he | hmem
    · subst he
      exact le_foldl_max_init _ _
    · exact le_foldl_max_mem _ _ _ (List.mem_map_of_mem Prod.snd hmem)

theorem alistFind_mem {α : Type} (l : List (String × α)) (k : String) (v : α)
    (h : alistFind l k = some v) : (k, v) ∈ l := by
  induction l with
  | nil => cases h
  | cons p ps ih =>
    rw [alistFind_cons] at h
    split at h
    · cases h
      rename_i hp
      exact List.mem_cons.mpr (Or.inl (hp ▸ Prod.mk.eta))
    · exact List.mem_cons_of_mem _ (ih h)

theorem alistFind_of_hasKey (c : Counter) (k : String) (h : hasKey c k = true) :
    alistFind c k = some (counterGet c k) := by
  obtain ⟨v, hv⟩ := Option.isSome_iff_exists.mp h
  rw [counterGet, hv]
  rfl

/-- Indexwise characterisation of a successful `mapOption` run. -/
theorem mapOption_get {α β : Type} (f : α → Option β) (l : List α) (res : List β)
    (h : mapOption f l = some res) :
    res.length = l.length ∧ ∀ (i : Nat) (hi : i < l.length) (hi2 : i < res.length),
      f (l.get ⟨i, hi⟩) = some (res.get ⟨i, hi2⟩) := by
  induction l generalizing res with
  | nil =>
    simp only [mapOption] at h
    cases h
    exact ⟨rfl, fun i hi _ => absurd hi (Nat.not_lt_zero i)⟩
  | cons a l ih =>
    rcases hfa : f a with _ | b
    · simp only [mapOption, hfa] at h
      exact Option.noConfusion h
    · rcases hml : mapOption f l with _ | bs
      · simp only [mapOption, hfa, hml] at h
        exact Option.noConfusion h
      · simp only [mapOption, hfa, hml] at h
        cases h
        obtain ⟨hlen, hidx⟩ := ih bs hml
        refine ⟨by simp [hlen], ?_⟩
        intro i hi hi2
        cases i with
        | zero => simpa using hfa
        | succ j =>
          exact hidx j (Nat.lt_of_succ_lt_succ hi) (Nat.lt_of_succ_lt_succ hi2)

/-- C2 (amended).  For every book of a successful `calc_atfs` run and every
lemma in that book's table, the augmented term frequency is exactly
`log2 (1 + freq / max_freq)` with `max_freq` the largest count of that
book; whenever the lemma's count is nonnegative (overlapping token
absorption can drive counts below zero, in which case the value drops
below 0 — see the counterexample) the value lies in `[0, 1]`. -/
theorem claim_C2 (books : List Counter) (atfs : List (List (String × ℚ)))
    (g : List (String × List ℚ)) (h : calc_atfs books = some (atfs, g))
    (i : Nat) (hi : i < books.length) (hi2 : i < atfs.length)
    (lex : String) (m : Int)
    (hm : maxCount (books.get ⟨i, hi⟩) = some m)
    (hlex : hasKey (books.get ⟨i, hi⟩) lex = true) :
    alistFind (atfs.get ⟨i, hi2⟩) lex
        = some (1 + (counterGet (books.get ⟨i, hi⟩) lex : ℚ) / (m : ℚ))
    ∧ alistFind (atf_table (atfs.get ⟨i, hi2⟩)) lex
        = some (Real.logb 2
            (((1 + (counterGet (books.get ⟨i, hi⟩) lex : ℚ) / (m : ℚ)) : ℚ) : ℝ))
    ∧ (0 ≤ counterGet (books.get ⟨i, hi⟩) lex →
        0 ≤ Real.logb 2 (((1 + (counterGet (books.get ⟨i, hi⟩) lex : ℚ) / (m : ℚ)) : ℚ) : ℝ)
        ∧ Real.logb 2 (((1 + (counterGet (books.get ⟨i, hi⟩) lex : ℚ) / (m : ℚ)) : ℚ) : ℝ) ≤ 1) := by
  rcases hmo : mapOption book_atf_args books with _ | atfs2
  · rw [calc_atfs, hmo] at h
    cases h
  · rw [calc_atfs, hmo] at h
    cases h
    have hbook := (mapOption_get book_atf_args books atfs hmo).2 i hi hi2
    simp only [book_atf_args, hm] at hbook
    by_cases hm0 : m = 0
    · rw [if_pos hm0] at hbook
      cases hbook
    · rw [if_neg hm0] at hbook
      have htab : atfs.get ⟨i, hi2⟩
          = (books.get ⟨i, hi⟩).map fun p => (p.1, 1 + (p.2 : ℚ) / (m : ℚ)) :=
        (Option.some.inj hbook).symm
      have hfound := alistFind_of_hasKey (books.get ⟨i, hi⟩) lex hlex
      have hfind1 : alistFind (atfs.get ⟨i, hi2⟩) lex
          = some (1 + (counterGet (books.get ⟨i, hi⟩) lex : ℚ) / (m : ℚ)) := by
        rw [htab, alistFind_map_value (fun v : Int => 1 + (v : ℚ) / (m : ℚ))
          (books.get ⟨i, hi⟩) lex, hfound]
        rfl
      refine ⟨hfind1, ?_, ?_⟩
      · rw [alistFind_atf, hfind1]
        rfl
      · intro hf
        have hle : counterGet (books.get ⟨i, hi⟩) lex ≤ m :=
          le_maxCount (books.get ⟨i, hi⟩) m hm (lex, counterGet (books.get ⟨i, hi⟩) lex)
            (alistFind_mem (books.get ⟨i, hi⟩) lex _ hfound)
        have hmpos : 0 < m := lt_of_le_of_ne (le_trans hf hle) (Ne.symm hm0)
        have hq0 : (0 : ℚ) ≤ (counterGet (books.get ⟨i, hi⟩) lex : ℚ) / (m : ℚ) :=
          div_nonneg (by exact_mod_cast hf) (by exact_mod_cast le_of_lt hmpos)
        have hq1 : (counterGet (books.get ⟨i, hi⟩) lex : ℚ) / (m : ℚ) ≤ 1 :=
          (div_le_one (by exact_mod_cast hmpos)).mpr (by exact_mod_cast hle)
        have hx1 : (1 : ℝ) ≤ (((1 + (counterGet (books.get ⟨i, hi⟩) lex : ℚ) / (m : ℚ)) : ℚ) : ℝ) := by
          have : (1 : ℚ) ≤ 1 + (counterGet (books.get ⟨i, hi⟩) lex : ℚ) / (m : ℚ) := by linarith
          exact_mod_cast this
        have hx2 : (((1 + (counterGet (books.get ⟨i, hi⟩) lex : ℚ) / (m : ℚ)) : ℚ) : ℝ) ≤ 2 := by
          have : (1 + (counterGet (books.get ⟨i, hi⟩) lex : ℚ) / (m : ℚ) : ℚ) ≤ 2 := by linarith
          exact_mod_cast this
        constructor
        · exact Real.logb_nonneg (by norm_num) hx1
        · calc Real.logb 2 (((1 + (counterGet (books.get ⟨i, hi⟩) lex : ℚ) / (m : ℚ)) : ℚ) : ℝ)
              ≤ Real.logb 2 2 :=
                Real.logb_le_logb_of_le (by norm_num) (by linarith) hx2
            _ = 1 := Real.logb_self_eq_one (by norm_num)

/-- Witness for C2 at a well-behaved book `{x: 3, y: 1}`: the atf argument
of `x` is `1 + 3/3` and the atf value lies in `[0, 1]`. -/
theorem claim_C2_witness :
    alistFind [("x", (2 : ℚ)), ("y", (4/3 : ℚ))] "x"
        = some (1 + (counterGet [("x", 3), ("y", 1)] "x" : ℚ) / ((3 : Int) : ℚ))
    ∧ (0 ≤ Real.logb 2
          (((1 + (counterGet [("x", 3), ("y", 1)] "x" : ℚ) / ((3 : Int) : ℚ)) : ℚ) : ℝ)
       ∧ Real.logb 2
          (((1 + (counterGet [("x", 3), ("y", 1)] "x" : ℚ) / ((3 : Int) : ℚ)) : ℚ) : ℝ) ≤ 1) := by
  have h := claim_C2 [[("x", 3), ("y", 1)]] [[("x", (2 : ℚ)), ("y", (4/3 : ℚ))]]
    [("x", [(2 : ℚ)]), ("y", [(4/3 : ℚ)])]
    (by simp [calc_atfs, mapOption, book_atf_args, maxCount, collect_atfs, alistAppend,
          alistFind, String.reduceEq]
        norm_num)
    0 (by decide) (by decide) "x" 3 (by decide) (by decide)
  exact ⟨h.1, h.2.2 (by decide)⟩

/-- Counterexample to C2 as stated: overlapping token absorption (token
`t = a b, b b` over the stream `a b b`) drives the count of `b` to `-1`,
so its augmented term frequency is `log2 (1 + (-1)/2) = log2 (1/2) < 0`,
outside `[0, 1]`, for a lemma that is present in the book's table. -/
theorem claim_C2_counterexample :
    calc_freqs [tokenAB] [] [[rowA, rowB, rowB]]
        = some ([("a", 0), ("b", -1), ("t", 2)], [[("a", 0), ("b", -1), ("t", 2)]])
    ∧ hasKey [("a", 0), ("b", -1), ("t", 2)] "b" = true
    ∧ calc_atfs [[("a", 0), ("b", -1), ("t", 2)]]
        = some ([[("a", 1), ("b", 1/2), ("t", 2)]], [("a", [1]), ("b", [1/2]), ("t", [2])])
    ∧ alistFind (atf_table [("a", (1 : ℚ)), ("b", (1/2 : ℚ)), ("t", (2 : ℚ))]) "b"
        = some (Real.logb 2 (((1/2 : ℚ)) : ℝ))
    ∧ Real.logb 2 (((1/2 : ℚ)) : ℝ) < 0 := by
  refine ⟨by decide, by decide, ?_, ?_, ?_⟩
  · simp [calc_atfs, mapOption, book_atf_args, maxCount, collect_atfs, alistAppend,
      alistFind, String.reduceEq]
    norm_num
  · rw [alistFind_atf, show alistFind [("a", (1 : ℚ)), ("b", (1/2 : ℚ)), ("t", (2 : ℚ))] "b"
      = some (1/2 : ℚ) from by simp [alistFind, String.reduceEq]]
    rfl
  · have hc : (((1/2 : ℚ)) : ℝ) = 1/2 := by norm_num
    rw [hc]
    exact Real.logb_neg (by norm_num) (by norm_num) (by norm_num)

/-! ## Uniqueness of table keys through the counting pass -/

theorem hasKey_iff_mem (c : Counter) (k : String) :
    hasKey c k = true ↔ k ∈ c.map Prod.fst := by
  induction c with
  | nil => simp [hasKey, alistFind]
  | cons p ps ih =>
    rw [hasKey_cons]
    by_cases h : p.1 = k
    · simp [h]
    · have h2 : ¬ k = p.1 := fun hh => h hh.symm
      simp [h, h2, ih]

theorem counterAdd_keysNodup (c : Counter) (k : String) (n : Int) (h : keysNodup c) :
    keysNodup (counterAdd c k n) := by
  unfold counterAdd
  by_cases hk : hasKey c k
  · rw [if_pos hk]
    unfold keysNodup at h ⊢
    have hkeys : (c.map fun p => if p.1 = k then (p.1, p.2 + n) else p).map Prod.fst
        = c.map Prod.fst := by
      rw [List.map_map]
      apply List.map_congr_left
      intro p _
      by_cases hp : p.1 = k <;> simp [hp]
    rwa [hkeys]
  · rw [if_neg hk]
    unfold keysNodup at h ⊢
    rw [List.map_append]
    have hnk : k ∉ c.map Prod.fst := fun hmem => hk ((hasKey_iff_mem c k).mpr hmem)
    simp [List.nodup_append, h, hnk]

theorem absorb_keysNodup (rows : List Row) (all book : Counter)
    (h1 : keysNodup all) (h2 : keysNodup book) :
    keysNodup (absorb all book rows).1 ∧ keysNodup (absorb all book rows).2 := by
  induction rows generalizing all book with
  | nil => exact ⟨h1, h2⟩
  | cons r rs ih =>
    exact ih _ _ (counterAdd_keysNodup _ _ _ h1) (counterAdd_keysNodup _ _ _ h2)

theorem stepRow_keysNodup (cfg : FreqConfig) (st : FreqState) (row : Row)
    (h1 : keysNodup st.all_freqs) (h2 : keysNodup st.book_freqs) :
    keysNodup (stepRow cfg st row).all_freqs ∧ keysNodup (stepRow cfg st row).book_freqs := by
  unfold stepRow
  by_cases hs : row.lemma_ ∈ cfg.stopwords
  · simp only [hs, if_true]
    exact ⟨h1, h2⟩
  · simp only [hs, if_false]
    rcases hm : firstTokenMatch cfg.tokens (windowAdvance cfg.qlen st.row_queue row) with
      _ | ⟨tok, rows⟩
    · simp only [hm]
      exact ⟨counterAdd_keysNodup _ _ _ h1, counterAdd_keysNodup _ _ _ h2⟩
    · simp only [hm]
      obtain ⟨ha, hb⟩ := absorb_keysNodup rows _ _
        (counterAdd_keysNodup _ _ _ h1) (counterAdd_keysNodup _ _ _ h2)
      exact ⟨counterAdd_keysNodup _ _ _ ha, counterAdd_keysNodup _ _ _ hb⟩

theorem runRows_keysNodup (rows : List Row) (cfg : FreqConfig) (st : FreqState)
    (h1 : keysNodup st.all_freqs) (h2 : keysNodup st.book_freqs) :
    keysNodup (runRows cfg st rows).all_freqs ∧ keysNodup (runRows cfg st rows).book_freqs := by
  induction rows generalizing st with
  | nil => exact ⟨h1, h2⟩
  | cons r rs ih =>
    obtain ⟨ha, hb⟩ := stepRow_keysNodup cfg st r h1 h2
    simpa only [runRows, List.foldl_cons] using ih (stepRow cfg st r) ha hb

theorem runBooks_keysNodup (bs : List (List Row)) (cfg : FreqConfig) (all : Counter)
    (done : List Counter) (q : List Row) (hall : keysNodup all)
    (hdone : ∀ c ∈ done, keysNodup c) :
    ∀ c ∈ (runBooks cfg all done q bs).2.1, keysNodup c := by
  induction bs generalizing all done q with
  | nil => simpa [runBooks] using hdone
  | cons b bs ih =>
    simp only [runBooks]
    obtain ⟨ha, hb⟩ := runRows_keysNodup b cfg ⟨all, [], q⟩ hall List.nodup_nil
    apply ih _ _ _ ha
    intro c hc
    rcases List.mem_append.mp hc with hmem | hmem
    · exact hdone c hmem
    · rw [List.mem_singleton.mp hmem]
      exact hb

/-- Every per-book table produced by `calc_freqs` has unique keys — the
embedding's form of the Python `dict` key-uniqueness invariant. -/
theorem calc_freqs_keysNodup (tokens : List Token) (stopwords : List String)
    (corpus : List (List Row)) (all : Counter) (books : List Counter)
    (h : calc_freqs tokens stopwords corpus = some (all, books)) :
    ∀ c ∈ books, keysNodup c := by
  rcases h1 : mapOption Token.max_size tokens with _ | sizes
  · rw [calc_freqs, h1] at h
    cases h
  · rcases h2 : listMax1 sizes with _ | qlen
    · rw [calc_freqs, h1] at h
      simp only [h2] at h
      exact Option.noConfusion h
    · rw [calc_freqs, h1] at h
      simp only [h2] at h
      cases h
      exact runBooks_keysNodup corpus ⟨tokens, qlen, stopwords⟩ [] [] [] List.nodup_nil
        (fun c hc => absurd hc (List.not_mem_nil c))

/-! ## The all_atfs accumulation -/

theorem alistFind_append {α : Type} (g1 g2 : List (String × α)) (k : String) :
    alistFind (g1 ++ g2) k =
      (match alistFind g1 k with
       | some v => some v
       | none => alistFind g2 k) := by
  induction g1 with
  | nil => rfl
  | cons p ps ih =>
    rw [List.cons_append, alistFind_cons, alistFind_cons]
    by_cases h : p.1 = k
    · simp [h]
    · simp [h, ih]

theorem alistFind_map_update_other {α : Type} (g : List (String × α)) (k : String)
    (F : α → α) (k2 : String) (h : k2 ≠ k) :
    alistFind (g.map fun p => if p.1 = k then (p.1, F p.2) else p) k2 = alistFind g k2 := by
  induction g with
  | nil => rfl
  | cons p ps ih =>
    by_cases hp : p.1 = k
    · simp only [List.map_cons, if_pos hp]
      rw [alistFind_cons, alistFind_cons]
      have hne : ¬ p.1 = k2 := fun hh => h (hh.symm.trans hp)
      simp [hne, ih]
    · simp only [List.map_cons, if_neg hp]
      rw [alistFind_cons, alistFind_cons]
      by_cases hp2 : p.1 = k2
      · simp [hp2]
      · simp [hp2, ih]

theorem alistFind_map_update_same {α : Type} (g : List (String × α)) (k : String)
    (F : α → α) :
    alistFind (g.map fun p => if p.1 = k then (p.1, F p.2) else p) k
      = (alistFind g k).map F := by
  induction g with
  | nil => rfl
  | cons p ps ih =>
    by_cases hp : p.1 = k
    · simp only [List.map_cons, if_pos hp]
      rw [alistFind_cons, alistFind_cons]
      simp [hp]
    · simp only [List.map_cons, if_neg hp]
      rw [alistFind_cons, alistFind_cons]
      simp [hp, ih]

/-- `all_atfs[k].append(v)` extends the value list under `k` (creating the
singleton on first touch). -/
theorem alistAppend_find_same (g : List (String × List ℚ)) (k : String) (v : ℚ) :
    alistFind (alistAppend g k v) k = some ((alistFind g k).getD [] ++ [v]) := by
  unfold alistAppend
  by_cases hc : (alistFind g k).isSome = true
  · rw [if_pos hc]
    obtain ⟨l, hl⟩ := Option.isSome_iff_exists.mp hc
    rw [alistFind_map_update_same g k (fun l2 => l2 ++ [v]), hl]
    rfl
  · rw [if_neg hc]
    have hn : alistFind g k = none := by
      rcases hg : alistFind g k with _ | l
      · rfl
      · exact absurd (by rw [hg]; rfl) hc
    rw [alistFind_append, hn]
    simp [alistFind_cons]

/-- `all_atfs[k].append(v)` leaves every other key's value list alone. -/
theorem alistAppend_find_other (g : List (String × List ℚ)) (k : String) (v : ℚ)
    (k2 : String) (h : k2 ≠ k) :
    alistFind (alistAppend g k v) k2 = alistFind g k2 := by
  unfold alistAppend
  by_cases hc : (alistFind g k).isSome = true
  · rw [if_pos hc]
    exact alistFind_map_update_other g k (fun l2 => l2 ++ [v]) k2 h
  · rw [if_neg hc]
    rw [alistFind_append]
    rcases hg : alistFind g k2 with _ | l
    · simp only [hg, alistFind_cons, alistFind_nil]
      rw [if_neg (fun hh => h hh.symm)]
    · simp [hg]

/-- Folding one book table (with unique keys) into the accumulator appends
that book's value under each of its keys and touches nothing else. -/
theorem fold_table_find (t : List (String × ℚ)) (g : List (String × List ℚ)) (k : String)
    (hnod : keysNodup t) :
    alistFind (t.foldl (fun g2 p => alistAppend g2 p.1 p.2) g) k =
      (match alistFind t k with
       | none => alistFind g k
       | some v => some ((alistFind g k).getD [] ++ [v])) := by
  induction t generalizing g with
  | nil => rfl
  | cons p ps ih =>
    have hn1 : p.1 ∉ ps.map Prod.fst := (List.nodup_cons.mp hnod).1
    have hn2 : keysNodup ps := (List.nodup_cons.mp hnod).2
    rw [List.foldl_cons, ih (alistAppend g p.1 p.2) hn2]
    by_cases hk : p.1 = k
    · subst hk
      have hps : alistFind ps p.1 = none := by
        rcases hf : alistFind ps p.1 with _ | v
        · rfl
        · exact absurd (List.mem_map_of_mem Prod.fst (alistFind_mem ps p.1 v hf)) hn1
      rw [hps, alistFind_cons, if_pos rfl, alistAppend_find_same]
    · rw [alistFind_cons, if_neg hk, alistAppend_find_other g p.1 p.2 k (fun hh => hk hh.symm)]

/-- Folding a list of books (each with unique keys) into the accumulator:
the value list under each key is the ordered collection of that key's
per-book values over the books that have the key. -/
theorem fold_tables_find (ts : List (List (String × ℚ))) (g : List (String × List ℚ))
    (k : String) (hnod : ∀ t ∈ ts, keysNodup t) :
    alistFind (ts.foldl (fun g2 t => t.foldl (fun g3 p => alistAppend g3 p.1 p.2) g2) g) k =
      (if ts.filterMap (fun t => alistFind t k) = [] then alistFind g k
       else some ((alistFind g k).getD []
         ++ ts.filterMap (fun t => alistFind t k))) := by
  induction ts generalizing g with
  | nil => simp
  | cons t ts ih =>
    rw [List.foldl_cons, ih _ (fun t2 ht2 => hnod t2 (List.mem_cons_of_mem t ht2))]
    have hone := fold_table_find t g k (hnod t (List.mem_cons_self t ts))
    rcases hf : alistFind t k with _ | v
    · rw [hf] at hone
      simp only at hone
      simp only [List.filterMap_cons, hf, hone]
    · rw [hf] at hone
      simp only at hone
      simp only [List.filterMap_cons, hf]
      by_cases hrest : ts.filterMap (fun t2 => alistFind t2 k) = []
      · rw [if_pos hrest, hrest]
        simp [hone]
      · rw [if_neg hrest, if_neg (by simp), hone]
        simp

/-- The `all_atfs` table built by `collect_atfs` holds, under each key that
occurs at all, exactly the per-book values in book order. -/
theorem collect_atfs_find (ts : List (List (String × ℚ))) (k : String)
    (hnod : ∀ t ∈ ts, keysNodup t)
    (hne : ts.filterMap (fun t => alistFind t k) ≠ []) :
    alistFind (collect_atfs ts) k = some (ts.filterMap (fun t => alistFind t k)) := by
  unfold collect_atfs
  rw [fold_tables_find ts [] k hnod, if_neg hne]
  rfl

/-- Every table of a successful `mapOption` run comes from some input. -/
theorem mapOption_mem {α β : Type} (f : α → Option β) (l : List α) (res : List β)
    (h : mapOption f l = some res) :
    ∀ y ∈ res, ∃ x ∈ l, f x = some y := by
  induction l generalizing res with
  | nil =>
    simp only [mapOption] at h
    cases h
    intro y hy
    cases hy
  | cons a l ih =>
    rcases hfa : f a with _ | b
    · simp only [mapOption, hfa] at h
      exact Option.noConfusion h
    · rcases hml : mapOption f l with _ | bs
      · simp only [mapOption, hfa, hml] at h
        exact Option.noConfusion h
      · simp only [mapOption, hfa, hml] at h
        cases h
        intro y hy
        rcases List.mem_cons.mp hy with he | hm
        · exact ⟨a, List.mem_cons_self a l, he ▸ hfa⟩
        · obtain ⟨x, hx, hfx⟩ := ih bs hml y hm
          exact ⟨x, List.mem_cons_of_mem a hx, hfx⟩

theorem book_atf_args_keysNodup (c : Counter) (t : List (String × ℚ))
    (h : book_atf_args c = some t) (hnod : keysNodup c) : keysNodup t := by
  rcases hm : maxCount c with _ | m
  · simp only [book_atf_args, hm] at h
    exact Option.noConfusion h
  · simp only [book_atf_args, hm] at h
    by_cases h0 : m = 0
    · rw [if_pos h0] at h
      exact Option.noConfusion h
    · rw [if_neg h0] at h
      cases h
      unfold keysNodup at hnod ⊢
      rw [List.map_map]
      have hcomp : (Prod.fst ∘ fun p : String × Int => (p.1, 1 + (p.2 : ℚ) / (m : ℚ)))
          = Prod.fst := by
        funext p
        rfl
      rwa [hcomp]

/-- A book's atf table has an entry for a lemma exactly when the book's
frequency table does. -/
theorem book_atf_args_isSome (c : Counter) (t : List (String × ℚ))
    (h : book_atf_args c = some t) (lex : String) :
    (alistFind t lex).isSome = hasKey c lex := by
  rcases hm : maxCount c with _ | m
  · simp only [book_atf_args, hm] at h
    exact Option.noConfusion h
  · simp only [book_atf_args, hm] at h
    by_cases h0 : m = 0
    · rw [if_pos h0] at h
      exact Option.noConfusion h
    · rw [if_neg h0] at h
      cases h
      rw [alistFind_map_value (fun v : Int => 1 + (v : ℚ) / (m : ℚ)) c lex]
      unfold hasKey
      rcases alistFind c lex with _ | v <;> rfl

/-- C3.  For a pipeline run (`calc_freqs` then `calc_atfs`) and every lemma
appearing in at least one book, the global weight is `1` minus the
arithmetic mean — sum divided by count — of the lemma's atf values over
exactly the books whose tables contain the lemma, in book order; books
without the lemma contribute nothing, and a book's table contains the
lemma exactly when its frequency table does. -/
theorem claim_C3 (tokens : List Token) (stopwords : List String) (corpus : List (List Row))
    (all : Counter) (books : List Counter) (atfs : List (List (String × ℚ)))
    (g : List (String × List ℚ))
    (hfreqs : calc_freqs tokens stopwords corpus = some (all, books))
    (hatfs : calc_atfs books = some (atfs, g)) (lex : String)
    (hsome : ∃ (i : Nat) (hi : i < books.length), hasKey (books.get ⟨i, hi⟩) lex = true) :
    alistFind (imatf_table g) lex
      = some (1 - ((atfs.filterMap (fun t => alistFind t lex)).map
            (fun a => Real.logb 2 ((a : ℚ) : ℝ))).sum
          / ((atfs.filterMap (fun t => alistFind t lex)).length : ℝ))
    ∧ ∀ (i : Nat) (hi : i < books.length) (hi2 : i < atfs.length),
        (hasKey (books.get ⟨i, hi⟩) lex = true
          ↔ (alistFind (atfs.get ⟨i, hi2⟩) lex).isSome = true) := by
  rcases hmo : mapOption book_atf_args books with _ | atfs2
  · simp only [calc_atfs, hmo] at hatfs
    exact Option.noConfusion hatfs
  · simp only [calc_atfs, hmo] at hatfs
    cases hatfs
    have hbooksnodup := calc_freqs_keysNodup tokens stopwords corpus all books hfreqs
    have htabnodup : ∀ t ∈ atfs, keysNodup t := by
      intro t ht
      obtain ⟨c, hc, hfc⟩ := mapOption_mem book_atf_args books atfs hmo t ht
      exact book_atf_args_keysNodup c t hfc (hbooksnodup c hc)
    obtain ⟨hlen, hidx⟩ := mapOption_get book_atf_args books atfs hmo
    have hiff : ∀ (i : Nat) (hi : i < books.length) (hi2 : i < atfs.length),
        (hasKey (books.get ⟨i, hi⟩) lex = true
          ↔ (alistFind (atfs.get ⟨i, hi2⟩) lex).isSome = true) := by
      intro i hi hi2
      rw [book_atf_args_isSome (books.get ⟨i, hi⟩) (atfs.get ⟨i, hi2⟩) (hidx i hi hi2) lex]
    have hne : atfs.filterMap (fun t => alistFind t lex) ≠ [] := by
      obtain ⟨i, hi, hkey⟩ := hsome
      have hi2 : i < atfs.length := by
        rw [hlen]
        exact hi
      obtain ⟨v, hv⟩ := Option.isSome_iff_exists.mp ((hiff i hi hi2).mp hkey)
      exact List.ne_nil_of_mem
        (List.mem_filterMap.mpr ⟨atfs.get ⟨i, hi2⟩, List.get_mem atfs i hi2, hv⟩)
    refine ⟨?_, hiff⟩
    rw [alistFind_imatf, collect_atfs_find atfs lex htabnodup hne]
    rfl

/-- Witness for C3 on the one-book run of `tok = a` over the stream `a`:
the global weight entry of `a` is `1 - mean` of its single atf value. -/
theorem claim_C3_witness :
    alistFind (imatf_table [("a", [(1 : ℚ)]), ("tok", [(2 : ℚ)])]) "a"
      = some (1 - ((([[("a", (1 : ℚ)), ("tok", (2 : ℚ))]]
            : List (List (String × ℚ))).filterMap (fun t => alistFind t "a")).map
            (fun a => Real.logb 2 ((a : ℚ) : ℝ))).sum
          / ((([[("a", (1 : ℚ)), ("tok", (2 : ℚ))]]
            : List (List (String × ℚ))).filterMap (fun t => alistFind t "a")).length : ℝ)) :=
  (claim_C3 [tokenTok] [] [[rowA]] [("a", 0), ("tok", 1)] [[("a", 0), ("tok", 1)]]
    [[("a", (1 : ℚ)), ("tok", (2 : ℚ))]] [("a", [(1 : ℚ)]), ("tok", [(2 : ℚ)])]
    (by decide)
    (by simp [calc_atfs, mapOption, book_atf_args, maxCount, collect_atfs, alistAppend,
          alistFind, String.reduceEq]
        norm_num)
    "a" ⟨0, by decide, by decide⟩).1
